import Mathlib

/-!
# Verification of the minidaw audio-composition engine

Shallow embedding of `audio_composition.py`: the Timeline / Instrument /
Wavetable rendering pipeline.  Audio buffers are lists of rationals
(PCM samples), times and velocities are rationals, Python dictionaries
are association lists preserving insertion order, and fallible Python
code (raising exceptions) returns `Except`.
-/

namespace Minidaw

/-- A note identifier: Python `Union[int, str]`. -/
inductive Pitch where
  | num : Int → Pitch
  | name : String → Pitch
deriving DecidableEq, Repr

/-- Lookup in a Python dict modelled as an insertion-ordered association
list: `d[k]` when present. -/
def dictLookup {κ α : Type} [DecidableEq κ] (d : List (κ × α)) (k : κ) : Option α :=
  match d with
  | [] => none
  | (k', v) :: rest => if k' = k then some v else dictLookup rest k

/-- Assignment `d[k] = v` on a Python dict: replaces the value in place if
the key exists (keeping its position), otherwise appends. -/
def dictInsert {κ α : Type} [DecidableEq κ] (d : List (κ × α)) (k : κ) (v : α) : List (κ × α) :=
  match d with
  | [] => [(k, v)]
  | (k', v') :: rest => if k' = k then (k, v) :: rest else (k', v') :: dictInsert rest k v

/-- Python `int(q)`: truncation toward zero, computed by T-division of the
reduced numerator by the (positive) denominator. -/
def pyInt (q : ℚ) : ℤ :=
  q.num.tdiv q.den

/-- Normalisation of one slice bound in Python/NumPy slicing on a sequence
of length `len`: negative indices count from the end, then both are
clamped into `[0, len]`. -/
def pySliceIdx (i : ℤ) (len : ℕ) : ℕ :=
  if i < 0 then (i + len).toNat else min i.toNat len

/-- `SoundGenerator`: abstract producer of a PCM buffer.  The wavetable
calls it with a single argument (the wavetable's sample rate), so we model
it as a function of that argument. -/
structure SoundGenerator where
  get_sound : ℕ → List ℚ

/-- `AudioSample`: a static pre-recorded buffer with its native rate. -/
structure AudioSample where
  data : List ℚ
  sr : ℕ

/-- `AudioSample.get_sound(sr)`: ignores the requested rate and returns
the stored data (resampling is a TODO in the source). -/
def AudioSample.get_sound (a : AudioSample) (sr : Option ℕ) : List ℚ :=
  a.data

/-- View an `AudioSample` through the abstract `SoundGenerator` interface,
as `Wavetable(sample)` does. -/
def AudioSample.toGenerator (a : AudioSample) : SoundGenerator :=
  ⟨fun sr => a.get_sound (some sr)⟩

/-- `Wavetable`: a memoizing cache (`wavetable` field, a dict) in front of
a `SoundGenerator`, at a fixed sample rate. -/
structure Wavetable where
  sound_generator : SoundGenerator
  sr : ℕ
  wavetable : List (Pitch × List ℚ)

/-- `Wavetable.__init__(generator, sr)`: empty cache. -/
def Wavetable.init (g : SoundGenerator) (sr : ℕ) : Wavetable :=
  ⟨g, sr, []⟩

/-- `Wavetable.get_sound(k)`: forwards only `self.sr` to the generator;
the pitch `k` is not passed on. -/
def Wavetable.get_sound (wt : Wavetable) (k : Pitch) : List ℚ :=
  wt.sound_generator.get_sound wt.sr

/-- `Wavetable.__getitem__(k)`: generate-on-miss memoized lookup.  Returns
the buffer and the updated wavetable (the cache is mutated in place in
Python; we thread the state). -/
def Wavetable.getitem (wt : Wavetable) (k : Pitch) : List ℚ × Wavetable :=
  match dictLookup wt.wavetable k with
  | some v => (v, wt)
  | none =>
      let v := wt.get_sound k
      (v, { wt with wavetable := dictInsert wt.wavetable k v })

/-- `Note`: a timed event record. -/
structure Note where
  track_id : ℕ
  note : Pitch
  start_time : ℚ
  duration : ℚ
  velocity : ℚ
  time_wise : Bool
  is_on : Bool
deriving DecidableEq

instance : Inhabited Note := ⟨⟨0, .num 0, 0, 0, 0, false, true⟩⟩

/-- `Instrument`: wraps one wavetable. -/
structure Instrument where
  wavetable : Wavetable

/-- `Instrument.play_note(note)`:
`sound = self.wavetable[note.note] * note.velocity` (a fresh buffer),
then `sound = sound[:int(note.duration * sr)]` when `time_wise`.
Returns the buffer and the instrument with its (possibly grown) cache. -/
def Instrument.play_note (ins : Instrument) (note : Note) : List ℚ × Instrument :=
  let r := ins.wavetable.getitem note.note
  let sound := r.1.map (· * note.velocity)
  let sr := r.2.sr
  let sound :=
    if note.time_wise then
      sound.take (pySliceIdx (pyInt (note.duration * (sr : ℚ))) sound.length)
    else sound
  (sound, ⟨r.2⟩)

/-- `Track`: a stable id plus an instrument.  (The source's `name`
parameter is accepted but never stored.) -/
structure Track where
  id : ℕ
  instrument : Instrument

/-- NumPy `buf[s:e] += sound`: normalise the slice bounds, then add
elementwise when the view length matches `sound` (or broadcast a
length-1 `sound`); otherwise raise a broadcast `ValueError`. -/
def npAddSlice (buf : List ℚ) (s e : ℤ) (sound : List ℚ) : Except String (List ℚ) :=
  let s' := pySliceIdx s buf.length
  let e' := pySliceIdx e buf.length
  let viewLen := e' - s'
  let view := (buf.drop s').take viewLen
  if sound.length = viewLen then
    .ok (buf.take s' ++ view.zipWith (· + ·) sound ++ buf.drop (s' + viewLen))
  else if sound.length = 1 then
    .ok (buf.take s' ++ view.map (· + sound.headI) ++ buf.drop (s' + viewLen))
  else
    .error "could not broadcast"

/-- Note order used throughout: comparison of start times (`key=lambda x:
x.start_time`). -/
def noteLE (a b : Note) : Prop := a.start_time ≤ b.start_time

instance : DecidableRel noteLE := fun a b => inferInstanceAs (Decidable (_ ≤ _))

instance : IsTotal Note noteLE := ⟨fun a b => le_total a.start_time b.start_time⟩

instance : IsTrans Note noteLE := ⟨fun _ _ _ h h' => le_trans h h'⟩

/-- `notes` is non-decreasing in `start_time`. -/
def NotesSorted (l : List Note) : Prop := l.Sorted noteLE

/-- `bisect.bisect_right(a, x, lo, hi, key=start_time)`: binary search for
the insertion point after any entries whose key equals `x`. -/
def bisect_right (notes : List Note) (x : ℚ) (lo hi : ℕ) : ℕ :=
  if _h : lo < hi then
    if x < (notes.getD ((lo + hi) / 2) default).start_time then
      bisect_right notes x lo ((lo + hi) / 2)
    else bisect_right notes x ((lo + hi) / 2 + 1) hi
  else lo
termination_by hi - lo
decreasing_by
  · omega
  · omega

/-- `bisect.insort(notes, n, key=lambda x: x.start_time)`: insert `n` at
the `bisect_right` position. -/
def insort (notes : List Note) (n : Note) : List Note :=
  notes.insertIdx (bisect_right notes n.start_time 0 notes.length) n

/-- `Timeline`: track dict, note list, flags. -/
structure Timeline where
  tracks : List (ℕ × Track)
  notes : List Note
  keep_sorted : Bool
  sr : ℕ
  bpm : ℕ

/-- `Timeline.populate_tracks(tracks)`: add tracks with preassigned ids;
`raise Warning(...)` on an id collision aborts the loop (the assignment
after the `raise` never runs), leaving the timeline as it was at that
point. -/
def Timeline.populate_tracks (tl : Timeline) (ts : List Track) :
    Except String Unit × Timeline :=
  match ts with
  | [] => (.ok (), tl)
  | t :: rest =>
      if (dictLookup tl.tracks t.id).isSome then
        (.error "Track ID collision", tl)
      else
        Timeline.populate_tracks { tl with tracks := dictInsert tl.tracks t.id t } rest

/-- The `while t_id in self.tracks: t_id += 1` scan of `add_track`.  The
loop terminates because the key set is finite; `keys.length + 1` probes
always suffice (pigeonhole), and the fuelled scan returns the first free
candidate. -/
def findFreeGo (keys : List ℕ) : ℕ → ℕ → ℕ
  | 0, t => t
  | fuel + 1, t => if t ∈ keys then findFreeGo keys fuel (t + 1) else t

/-- First id `≥ t` not in `keys`. -/
def findFree (keys : List ℕ) (t : ℕ) : ℕ :=
  findFreeGo keys (keys.length + 1) t

/-- `Timeline.add_track(instrument, name)`: probe ids starting at
`len(self.tracks)`, wrap a bare `SoundGenerator` in a default
`Instrument(Wavetable(...))`, store and return the id. -/
def Timeline.add_track (tl : Timeline) (instrument : Instrument ⊕ SoundGenerator)
    (name : Option String) : ℕ × Timeline :=
  let t_id := findFree (tl.tracks.map Prod.fst) tl.tracks.length
  let ins : Instrument :=
    match instrument with
    | .inl i => i
    | .inr g => ⟨Wavetable.init g 44100⟩
  let new_track : Track := ⟨t_id, ins⟩
  (t_id, { tl with tracks := dictInsert tl.tracks new_track.id new_track })

/-- `Timeline.populate_notes(notes)`: insort each when `keep_sorted`,
else extend. -/
def Timeline.populate_notes (tl : Timeline) (ns : List Note) : Timeline :=
  if tl.keep_sorted then
    ns.foldl (fun t n => { t with notes := insort t.notes n }) tl
  else
    { tl with notes := tl.notes ++ ns }

/-- `Timeline.add_note(note)`. -/
def Timeline.add_note (tl : Timeline) (n : Note) : Timeline :=
  if tl.keep_sorted then { tl with notes := insort tl.notes n }
  else { tl with notes := tl.notes ++ [n] }

/-- `Timeline.sort_notes()`: Python's stable `list.sort(key=...)`,
modelled by the stable `insertionSort`. -/
def Timeline.sort_notes (tl : Timeline) : Timeline :=
  { tl with notes := tl.notes.insertionSort noteLE }

/-- `Timeline.__init__(tracks, notes, keep_sorted, sr, bpm)`.  A track-id
collision raises out of the constructor, before notes are populated. -/
def Timeline.init (tracks : List Track) (notes : List Note) (keep_sorted : Bool)
    (sr bpm : ℕ) : Except String Unit × Timeline :=
  let tl0 : Timeline := ⟨[], [], keep_sorted, sr, bpm⟩
  match tl0.populate_tracks tracks with
  | (.error e, tl1) => (.error e, tl1)
  | (.ok _, tl1) => (.ok (), tl1.populate_notes notes)

/-- The body of the render loop of `Timeline.generate_audio`.  Threads the
track map (wavetable caches grow), accumulates into `acc`, and reports the
positions (`idx`-based) of the notes whose track is resolved — the
call-counting observation the spec's tests ask for.  A missing track id
(`KeyError`) or a NumPy broadcast error aborts the render. -/
def genLoop (sr : ℕ) (startT endT : ℚ) (tracks : List (ℕ × Track)) :
    List Note → ℕ → List ℚ → Except String (List ℚ) × List (ℕ × Track) × List ℕ
  | [], _, acc => (.ok acc, tracks, [])
  | n :: rest, idx, acc =>
      if n.start_time + n.duration ≤ startT then
        genLoop sr startT endT tracks rest (idx + 1) acc
      else if endT ≤ n.start_time then
        (.ok acc, tracks, [])
      else
        match dictLookup tracks n.track_id with
        | none => (.error "KeyError", tracks, [idx])
        | some tr =>
            let r := tr.instrument.play_note n
            let tracks' := dictInsert tracks n.track_id { tr with instrument := r.2 }
            let start_idx := pyInt ((n.start_time - startT) * (sr : ℚ))
            match npAddSlice acc start_idx (start_idx + r.1.length) r.1 with
            | .error msg => (.error msg, tracks', [idx])
            | .ok acc' =>
                let rec2 := genLoop sr startT endT tracks' rest (idx + 1) acc'
                (rec2.1, rec2.2.1, idx :: rec2.2.2)

/-- `Timeline.generate_audio(start_time, end_time)`: sort if needed,
default `end_time` to `max(start + duration)` (raising on an empty note
list), allocate `np.zeros(int((end_time - start_time) * sr))` (raising on
a negative size), then run the mixing loop.  Returns the result, the
timeline with its in-place mutations (sorted notes, warmed caches), and
the trace of resolved note positions. -/
def Timeline.generate_audio (tl : Timeline) (startT : ℚ) (endT? : Option ℚ) :
    Except String (List ℚ) × Timeline × List ℕ :=
  let tl := if tl.keep_sorted then tl else tl.sort_notes
  let endE : Except String ℚ :=
    match endT? with
    | some e => .ok e
    | none =>
        match tl.notes.map (fun n => n.start_time + n.duration) with
        | [] => .error "max arg is an empty sequence"
        | x :: xs => .ok (xs.foldl max x)
  match endE with
  | .error msg => (.error msg, tl, [])
  | .ok endT =>
      let lenZ := pyInt ((endT - startT) * (tl.sr : ℚ))
      if lenZ < 0 then (.error "negative dimensions are not allowed", tl, [])
      else
        let r := genLoop tl.sr startT endT tl.tracks tl.notes 0 (List.replicate lenZ.toNat 0)
        (r.1, { tl with tracks := r.2.1 }, r.2.2)

/-- Observer for the spec's call-counting stub: how many times the
underlying `SoundGenerator` is invoked on behalf of pitch `p` while the
lookup sequence `ks` is served by the wavetable. -/
def callsFor (wt : Wavetable) (ks : List Pitch) (p : Pitch) : ℕ :=
  match ks with
  | [] => 0
  | k :: rest =>
      (if k = p ∧ (dictLookup wt.wavetable k).isNone then 1 else 0) +
        callsFor (wt.getitem k).2 rest p

/-- Run a sequence of `__getitem__` lookups, keeping only the cache state. -/
def runLookups (wt : Wavetable) (ks : List Pitch) : Wavetable :=
  ks.foldl (fun w k => (w.getitem k).2) wt

/-- Modelled from the spec: step 3 of §4.5 says the output buffer has
`round((end_time - start_time) * sample_rate)` samples (ordinary
rounding), which the source replaces by `int(...)` truncation. -/
def specRoundLen (startT endT : ℚ) (sr : ℕ) : ℤ :=
  round ((endT - startT) * (sr : ℚ))

/-! ## Concrete fixtures used by closed theorems and witnesses -/

/-- A generator that always produces a fixed buffer (an `AudioSample`
through the `SoundGenerator` interface). -/
def genConst (data : List ℚ) : SoundGenerator :=
  AudioSample.toGenerator ⟨data, 44100⟩

/-- An instrument over a fresh wavetable at rate `sr`. -/
def insOf (data : List ℚ) (sr : ℕ) : Instrument :=
  ⟨Wavetable.init (genConst data) sr⟩

/-- A four-sample kick at 1 Hz for the out-of-bounds scenario. -/
def tlLong : Timeline :=
  ⟨[(0, ⟨0, insOf [1, 1, 1, 1] 1⟩)],
   [⟨0, .name "kick", 0, 2, 1, false, true⟩], true, 1, 120⟩

/-- A timeline whose only track already has id 0. -/
def tlC8 : Timeline :=
  ⟨[(0, ⟨0, insOf [1] 44100⟩)], [], true, 44100, 120⟩

/-- A colliding replacement track (different instrument, same id 0). -/
def trColl : Track := ⟨0, insOf [2] 44100⟩

/-- A fresh track with id 1 that follows the colliding one in the list. -/
def trAfter : Track := ⟨1, insOf [3] 44100⟩

/-- A timeline whose only existing track id is 2 (ids 0 and 1 are free). -/
def tlGap : Timeline :=
  ⟨[(2, ⟨2, insOf [1] 44100⟩)], [], true, 44100, 120⟩

/-- A timeline with no notes at 10 samples per time unit. -/
def tlEmptyNotes : Timeline := ⟨[], [], true, 10, 120⟩

/-- A one-sample instrument for the velocity-scaling scenario. -/
def insW : Instrument := insOf [1] 1

/-- An early note inside the render window. -/
def nA : Note := ⟨0, .name "a", 0, 1, 1, false, true⟩

/-- A late note starting after the window end. -/
def nB : Note := ⟨0, .name "b", 5, 1, 1, false, true⟩

/-- A sorted two-note timeline for the early-exit scenario. -/
def tlW : Timeline := ⟨[(0, ⟨0, insOf [1] 1⟩)], [nA, nB], true, 1, 120⟩

/-- A note at velocity 1. -/
def nW1 : Note := ⟨0, .name "p", 0, 1, 1, false, true⟩

/-- The same pitch at velocity 2. -/
def nW2 : Note := ⟨0, .name "p", 0, 1, 2, false, true⟩

end Minidaw

namespace Minidaw

/-! ## Dictionary lemmas -/

theorem dictLookup_dictInsert_self {κ α : Type} [DecidableEq κ]
    (d : List (κ × α)) (k : κ) (v : α) :
    dictLookup (dictInsert d k v) k = some v := by
  induction d with
  | nil => simp [dictInsert, dictLookup]
  | cons hd rest ih =>
      obtain ⟨k', v'⟩ := hd
      by_cases h : k' = k
      · simp [dictInsert, dictLookup, h]
      · simp [dictInsert, dictLookup, h, ih]

theorem dictLookup_dictInsert_of_ne {κ α : Type} [DecidableEq κ]
    (d : List (κ × α)) (k k' : κ) (v : α) (hne : k' ≠ k) :
    dictLookup (dictInsert d k v) k' = dictLookup d k' := by
  induction d with
  | nil => simp [dictInsert, dictLookup, Ne.symm hne]
  | cons hd rest ih =>
      obtain ⟨k₀, v₀⟩ := hd
      by_cases h : k₀ = k
      · subst h
        simp [dictInsert, dictLookup, Ne.symm hne]
      · simp [dictInsert, dictLookup, h, ih]

theorem dictInsert_eq_self {κ α : Type} [DecidableEq κ]
    (d : List (κ × α)) (k : κ) (v : α) (h : dictLookup d k = some v) :
    dictInsert d k v = d := by
  induction d with
  | nil => simp [dictLookup] at h
  | cons hd rest ih =>
      obtain ⟨k₀, v₀⟩ := hd
      by_cases hk : k₀ = k
      · subst hk
        simp [dictLookup] at h
        simp [dictInsert, h]
      · simp [dictLookup, hk] at h
        simp [dictInsert, hk, ih h]

/-! ## Wavetable cache lemmas -/

/-- `__getitem__` never changes the generator. -/
theorem Wavetable.getitem_sound_generator (wt : Wavetable) (k : Pitch) :
    (wt.getitem k).2.sound_generator = wt.sound_generator := by
  unfold Wavetable.getitem
  cases h : dictLookup wt.wavetable k <;> simp

/-- `__getitem__` never changes the sample rate. -/
theorem Wavetable.getitem_sr (wt : Wavetable) (k : Pitch) :
    (wt.getitem k).2.sr = wt.sr := by
  unfold Wavetable.getitem
  cases h : dictLookup wt.wavetable k <;> simp

/-- After a lookup, the returned buffer is the cached entry for that key. -/
theorem Wavetable.getitem_lookup_self (wt : Wavetable) (k : Pitch) :
    dictLookup (wt.getitem k).2.wavetable k = some (wt.getitem k).1 := by
  unfold Wavetable.getitem
  cases h : dictLookup wt.wavetable k with
  | some v => simpa using h
  | none => simp [dictLookup_dictInsert_self]

/-- A cached entry is never modified by a lookup (of any key). -/
theorem Wavetable.getitem_preserves (wt : Wavetable) (k k' : Pitch) (v : List ℚ)
    (h : dictLookup wt.wavetable k' = some v) :
    dictLookup (wt.getitem k).2.wavetable k' = some v := by
  unfold Wavetable.getitem
  cases hk : dictLookup wt.wavetable k with
  | some w => simpa using h
  | none =>
      have hne : k' ≠ k := by
        intro he
        rw [he, hk] at h
        exact Option.noConfusion h
      simpa [dictLookup_dictInsert_of_ne _ _ _ _ hne] using h

/-- A cache hit returns the entry and leaves the wavetable untouched. -/
theorem Wavetable.getitem_of_cached (wt : Wavetable) (k : Pitch) (v : List ℚ)
    (h : dictLookup wt.wavetable k = some v) :
    wt.getitem k = (v, wt) := by
  unfold Wavetable.getitem
  rw [h]

/-- A second lookup of the same key is a cache hit with the same buffer. -/
theorem Wavetable.getitem_getitem (wt : Wavetable) (k : Pitch) :
    (wt.getitem k).2.getitem k = ((wt.getitem k).1, (wt.getitem k).2) :=
  Wavetable.getitem_of_cached _ _ _ (Wavetable.getitem_lookup_self wt k)

/-- Once a pitch sits in the cache, the generator is never again invoked
on its behalf. -/
theorem callsFor_eq_zero_of_cached (ks : List Pitch) :
    ∀ (wt : Wavetable) (p : Pitch) (v : List ℚ),
      dictLookup wt.wavetable p = some v → callsFor wt ks p = 0 := by
  induction ks with
  | nil => intro wt p v _; rfl
  | cons k rest ih =>
      intro wt p v h
      unfold callsFor
      by_cases hk : k = p
      · subst hk
        simp [h]
        rcases hw : dictLookup (wt.getitem k).2.wavetable k with _ | w
        · rw [Wavetable.getitem_lookup_self wt k] at hw
          exact Option.noConfusion hw
        · exact ih _ _ _ hw
      · simp [hk]
        exact ih _ _ _ (Wavetable.getitem_preserves wt k p v h)

/-- Every cache entry equals the single buffer the generator produces for
this wavetable's rate (the pitch is never forwarded). -/
def CacheCorrect (wt : Wavetable) : Prop :=
  ∀ k v, dictLookup wt.wavetable k = some v → v = wt.sound_generator.get_sound wt.sr

theorem CacheCorrect.getitem {wt : Wavetable} (h : CacheCorrect wt) (k : Pitch) :
    CacheCorrect (wt.getitem k).2 := by
  intro k' v hv
  rw [Wavetable.getitem_sound_generator, Wavetable.getitem_sr]
  revert hv
  unfold Wavetable.getitem
  cases hl : dictLookup wt.wavetable k with
  | some w => exact fun hv => h k' v hv
  | none =>
      intro hv
      by_cases hk : k' = k
      · subst hk
        rw [dictLookup_dictInsert_self] at hv
        simpa [Wavetable.get_sound] using (Option.some.inj hv).symm
      · rw [dictLookup_dictInsert_of_ne _ _ _ _ hk] at hv
        exact h k' v hv

theorem CacheCorrect.getitem_fst {wt : Wavetable} (h : CacheCorrect wt) (k : Pitch) :
    (wt.getitem k).1 = wt.sound_generator.get_sound wt.sr := by
  unfold Wavetable.getitem
  cases hl : dictLookup wt.wavetable k with
  | some w => simpa using h k w hl
  | none => simp [Wavetable.get_sound]

theorem runLookups_cacheCorrect (ks : List Pitch) :
    ∀ wt : Wavetable, CacheCorrect wt → CacheCorrect (runLookups wt ks) := by
  induction ks with
  | nil => intro wt h; exact h
  | cons k rest ih =>
      intro wt h
      exact ih _ (h.getitem k)

theorem runLookups_sound_generator (ks : List Pitch) :
    ∀ wt : Wavetable, (runLookups wt ks).sound_generator = wt.sound_generator := by
  induction ks with
  | nil => intro wt; rfl
  | cons k rest ih =>
      intro wt
      rw [runLookups, List.foldl_cons, ← runLookups]
      rw [ih, Wavetable.getitem_sound_generator]

theorem runLookups_sr (ks : List Pitch) :
    ∀ wt : Wavetable, (runLookups wt ks).sr = wt.sr := by
  induction ks with
  | nil => intro wt; rfl
  | cons k rest ih =>
      intro wt
      rw [runLookups, List.foldl_cons, ← runLookups]
      rw [ih, Wavetable.getitem_sr]

theorem Wavetable.init_cacheCorrect (g : SoundGenerator) (sr : ℕ) :
    CacheCorrect (Wavetable.init g sr) := by
  intro k v hv
  simp [Wavetable.init, dictLookup] at hv

theorem callsFor_le_one (ks : List Pitch) :
    ∀ (wt : Wavetable) (p : Pitch), callsFor wt ks p ≤ 1 := by
  induction ks with
  | nil => intro wt p; exact Nat.zero_le 1
  | cons k rest ih =>
      intro wt p
      unfold callsFor
      by_cases hk : k = p ∧ (dictLookup wt.wavetable k).isNone = true
      · obtain ⟨hkp, hmiss⟩ := hk
        subst hkp
        have h0 : callsFor (wt.getitem k).2 rest k = 0 :=
          callsFor_eq_zero_of_cached rest _ _ _ (Wavetable.getitem_lookup_self wt k)
        simp [hmiss, h0]
      · simp only [if_neg hk, Nat.zero_add]
        exact ih _ _

/-! ## add_track id-probing lemmas -/

theorem dictLookup_eq_none_iff {κ α : Type} [DecidableEq κ]
    (d : List (κ × α)) (k : κ) :
    dictLookup d k = none ↔ k ∉ d.map Prod.fst := by
  induction d with
  | nil => simp [dictLookup]
  | cons hd rest ih =>
      obtain ⟨k₀, v₀⟩ := hd
      by_cases h : k₀ = k
      · subst h
        simp [dictLookup]
      · simp [dictLookup, h, ih, Ne.symm h]

/-- Provided some free id exists inside the fuel window, the probing loop
returns the first id `≥ t` not in `keys`. -/
theorem findFreeGo_spec (keys : List ℕ) :
    ∀ (fuel t : ℕ), (∃ u, u ∉ keys ∧ t ≤ u ∧ u < t + fuel) →
      findFreeGo keys fuel t ∉ keys ∧ t ≤ findFreeGo keys fuel t ∧
        ∀ j, t ≤ j → j < findFreeGo keys fuel t → j ∈ keys := by
  intro fuel
  induction fuel with
  | zero =>
      intro t ⟨u, _, hle, hlt⟩
      omega
  | succ fuel ih =>
      intro t ⟨u, hu, hle, hlt⟩
      by_cases ht : t ∈ keys
      · have hwin : ∃ u, u ∉ keys ∧ t + 1 ≤ u ∧ u < t + 1 + fuel := by
          refine ⟨u, hu, ?_, by omega⟩
          rcases Nat.eq_or_lt_of_le hle with h | h
          · exact absurd (h ▸ ht) hu
          · omega
        obtain ⟨hfree, hge, hall⟩ := ih (t + 1) hwin
        rw [findFreeGo, if_pos ht]
        refine ⟨hfree, by omega, ?_⟩
        intro j hj1 hj2
        rcases Nat.eq_or_lt_of_le hj1 with h | h
        · exact h ▸ ht
        · exact hall j h hj2
      · rw [findFreeGo, if_neg ht]
        exact ⟨ht, Nat.le_refl t, fun j hj1 hj2 => absurd (Nat.lt_of_le_of_lt hj1 hj2)
          (Nat.lt_irrefl t)⟩

/-- Pigeonhole: among `keys.length + 1` consecutive candidates starting
anywhere, at least one is not a key. -/
theorem exists_free_in_window (keys : List ℕ) (t : ℕ) :
    ∃ u, u ∉ keys ∧ t ≤ u ∧ u < t + (keys.length + 1) := by
  by_contra hcon
  push_neg at hcon
  have hsub : Finset.Ico t (t + (keys.length + 1)) ⊆ keys.toFinset := by
    intro u hu
    rw [Finset.mem_Ico] at hu
    rw [List.mem_toFinset]
    by_contra hnot
    exact absurd hu.2 (by simpa using hcon u hnot hu.1)
  have hcard := Finset.card_le_card hsub
  rw [Nat.card_Ico] at hcard
  have hlen := List.toFinset_card_le keys
  omega

/-- The id returned by `findFree keys t` is free, at least `t`, and every
id in `[t, result)` is taken. -/
theorem findFree_spec (keys : List ℕ) (t : ℕ) :
    findFree keys t ∉ keys ∧ t ≤ findFree keys t ∧
      ∀ j, t ≤ j → j < findFree keys t → j ∈ keys :=
  findFreeGo_spec keys (keys.length + 1) t (exists_free_in_window keys t)

/-! ## Sorted insertion (`bisect.insort`) lemmas -/

instance : IsRefl Note noteLE := ⟨fun a => le_refl a.start_time⟩

theorem getD_eq_get_of_lt (l : List Note) (j : ℕ) (h : j < l.length) :
    l.getD j default = l.get ⟨j, h⟩ := by
  rw [List.getD_eq_getElem?_getD, List.getElem?_eq_getElem h]
  rfl

theorem NotesSorted.start_le {l : List Note} (hs : NotesSorted l) {i j : ℕ}
    (hij : i ≤ j) (hj : j < l.length) :
    (l.get ⟨i, lt_of_le_of_lt hij hj⟩).start_time ≤ (l.get ⟨j, hj⟩).start_time :=
  List.Sorted.rel_get_of_le hs hij

/-- Loop invariant proof for the binary search: given that everything
before `lo` has key `≤ x` and everything from `hi` on has key `> x`, the
search returns the boundary index. -/
theorem bisect_right_go_spec (notes : List Note) (x : ℚ) (hs : NotesSorted notes) :
    ∀ (d lo hi : ℕ), hi - lo = d → lo ≤ hi → hi ≤ notes.length →
      (∀ j, j < lo → (h : j < notes.length) → (notes.get ⟨j, h⟩).start_time ≤ x) →
      (∀ j, hi ≤ j → (h : j < notes.length) → x < (notes.get ⟨j, h⟩).start_time) →
      lo ≤ bisect_right notes x lo hi ∧ bisect_right notes x lo hi ≤ hi ∧
        (∀ j, (h : j < notes.length) → j < bisect_right notes x lo hi →
          (notes.get ⟨j, h⟩).start_time ≤ x) ∧
        (∀ j, (h : j < notes.length) → bisect_right notes x lo hi ≤ j →
          x < (notes.get ⟨j, h⟩).start_time) := by
  intro d
  induction d using Nat.strong_induction_on with
  | _ d ih =>
      intro lo hi hd hlohi hhilen hpre hpost
      rw [bisect_right]
      by_cases hlt : lo < hi
      · rw [dif_pos hlt]
        have hmidlt : (lo + hi) / 2 < hi := by omega
        have hmidge : lo ≤ (lo + hi) / 2 := by omega
        have hmidlen : (lo + hi) / 2 < notes.length := lt_of_lt_of_le hmidlt hhilen
        rw [getD_eq_get_of_lt notes ((lo + hi) / 2) hmidlen]
        by_cases hx : x < (notes.get ⟨(lo + hi) / 2, hmidlen⟩).start_time
        · rw [if_pos hx]
          have hmono : ∀ j, (lo + hi) / 2 ≤ j → (h : j < notes.length) →
              x < (notes.get ⟨j, h⟩).start_time := by
            intro j hj h
            exact lt_of_lt_of_le hx (hs.start_le hj h)
          obtain ⟨h1, h2, h3, h4⟩ := ih ((lo + hi) / 2 - lo) (by omega) lo ((lo + hi) / 2)
            rfl hmidge (le_of_lt hmidlen) hpre hmono
          exact ⟨h1, le_trans h2 (le_of_lt hmidlt), h3, h4⟩
        · rw [if_neg hx]
          push_neg at hx
          have hpre' : ∀ j, j < (lo + hi) / 2 + 1 → (h : j < notes.length) →
              (notes.get ⟨j, h⟩).start_time ≤ x := by
            intro j hj h
            exact le_trans (hs.start_le (by omega : j ≤ (lo + hi) / 2) hmidlen) hx
          obtain ⟨h1, h2, h3, h4⟩ := ih (hi - ((lo + hi) / 2 + 1)) (by omega)
            ((lo + hi) / 2 + 1) hi rfl (by omega) hhilen hpre' hpost
          exact ⟨le_trans (by omega) h1, h2, h3, h4⟩
      · rw [dif_neg hlt]
        have : lo = hi := by omega
        subst this
        exact ⟨le_refl lo, le_refl lo, fun j h hj => hpre j hj h,
          fun j h hj => hpost j hj h⟩

/-- `insertIdx` at an in-range index splits the list there. -/
theorem insertIdx_eq_take_cons_drop (n : Note) :
    ∀ (r : ℕ) (l : List Note), r ≤ l.length →
      l.insertIdx r n = l.take r ++ n :: l.drop r := by
  intro r
  induction r with
  | zero => intro l _; simp
  | succ s ih =>
      intro l hr
      cases l with
      | nil => simp at hr
      | cons a tl =>
          simp only [List.insertIdx_succ_cons, List.take_succ_cons, List.drop_succ_cons,
            List.cons_append]
          rw [ih tl (by simpa using hr)]

/-- A prefix characterised index-wise is exactly `takeWhile`. -/
theorem takeWhile_dropWhile_eq_take_drop (p : Note → Bool) :
    ∀ (l : List Note) (r : ℕ), r ≤ l.length →
      (∀ j, (h : j < l.length) → j < r → p (l.get ⟨j, h⟩) = true) →
      (∀ j, (h : j < l.length) → r ≤ j → p (l.get ⟨j, h⟩) = false) →
      l.takeWhile p = l.take r ∧ l.dropWhile p = l.drop r := by
  intro l
  induction l with
  | nil => intro r hr _ _; simp_all
  | cons a tl ih =>
      intro r hr h1 h2
      cases r with
      | zero =>
          have ha := h2 0 (by simp) (Nat.zero_le 0)
          simp only [List.get] at ha
          simp [List.takeWhile, List.dropWhile, ha]
      | succ s =>
          have ha := h1 0 (by simp) (Nat.succ_pos s)
          simp only [List.get] at ha
          have htl := ih s (by simpa using hr)
            (fun j h hj => h1 (j + 1) (by simpa using h) (by omega))
            (fun j h hj => h2 (j + 1) (by simpa using h) (by omega))
          simp [List.takeWhile, List.dropWhile, ha, htl.1, htl.2]

/-- On a sorted list, `bisect.insort` inserts after every entry whose
start time is `≤` the new note's: the stable right-biased insertion. -/
theorem insort_eq_of_sorted (l : List Note) (n : Note) (hs : NotesSorted l) :
    insort l n =
      l.takeWhile (fun m => decide (m.start_time ≤ n.start_time)) ++ n ::
        l.dropWhile (fun m => decide (m.start_time ≤ n.start_time)) := by
  obtain ⟨h1, h2, h3, h4⟩ := bisect_right_go_spec l n.start_time hs (l.length - 0) 0
    l.length rfl (Nat.zero_le _) (le_refl _)
    (fun j hj _ => absurd hj (Nat.not_lt_zero j))
    (fun j hj h => absurd hj (Nat.not_le_of_lt h))
  set r := bisect_right l n.start_time 0 l.length with hr
  obtain ⟨htw, hdw⟩ := takeWhile_dropWhile_eq_take_drop
    (fun m => decide (m.start_time ≤ n.start_time)) l r h2
    (fun j h hj => decide_eq_true (h3 j h hj))
    (fun j h hj => decide_eq_false (not_le_of_lt (h4 j h hj)))
  rw [insort, ← hr, htw, hdw]
  exact insertIdx_eq_take_cons_drop n r l h2

/-- The first element surviving `dropWhile` fails the predicate. -/
theorem dropWhile_head_false (p : Note → Bool) :
    ∀ (l : List Note) (b0 : Note) (rest : List Note),
      l.dropWhile p = b0 :: rest → p b0 = false := by
  intro l
  induction l with
  | nil => intro b0 rest h; simp [List.dropWhile] at h
  | cons a tl ih =>
      intro b0 rest h
      rw [List.dropWhile_cons] at h
      by_cases hpa : p a = true
      · rw [if_pos hpa] at h
        exact ih b0 rest h
      · rw [if_neg hpa] at h
        obtain ⟨h1, _⟩ := List.cons.inj h
        rw [← h1]
        exact eq_false_of_ne_true hpa

/-- Inserting with `insort` keeps the list sorted. -/
theorem insort_sorted (l : List Note) (n : Note) (hs : NotesSorted l) :
    NotesSorted (insort l n) := by
  rw [insort_eq_of_sorted l n hs]
  have hsl : NotesSorted (l.takeWhile (fun m => decide (m.start_time ≤ n.start_time)) ++
      l.dropWhile (fun m => decide (m.start_time ≤ n.start_time))) := by
    rw [List.takeWhile_append_dropWhile]
    exact hs
  rw [NotesSorted, List.Sorted, List.pairwise_append] at hsl ⊢
  obtain ⟨hst, hsd, hcross⟩ := hsl
  refine ⟨hst, ?_, ?_⟩
  · rw [List.pairwise_cons]
    refine ⟨?_, hsd⟩
    intro b hb
    rcases hd : l.dropWhile (fun m => decide (m.start_time ≤ n.start_time))
      with _ | ⟨b0, rest⟩
    · rw [hd] at hb
      exact absurd hb (List.not_mem_nil b)
    · have hb0 : (decide (b0.start_time ≤ n.start_time)) = false :=
        dropWhile_head_false _ l b0 rest hd
      have hb0n : n.start_time < b0.start_time := by
        simp only [decide_eq_false_iff_not] at hb0
        exact lt_of_not_le hb0
      rw [hd] at hb hsd
      rcases List.mem_cons.mp hb with h | h
      · exact le_of_lt (h ▸ hb0n)
      · exact le_trans (le_of_lt hb0n) ((List.pairwise_cons.mp hsd).1 b h)
  · intro a ha b hb
    have hpa : a.start_time ≤ n.start_time := by
      have := List.mem_takeWhile_imp ha
      simpa using this
    rcases List.mem_cons.mp hb with h | h
    · exact h ▸ hpa
    · exact hcross a ha b h

/-! ## Timeline note-management plumbing -/

theorem populate_tracks_notes (ts : List Track) :
    ∀ tl : Timeline, (tl.populate_tracks ts).2.notes = tl.notes ∧
      (tl.populate_tracks ts).2.keep_sorted = tl.keep_sorted := by
  induction ts with
  | nil => intro tl; exact ⟨rfl, rfl⟩
  | cons t rest ih =>
      intro tl
      rw [Timeline.populate_tracks]
      by_cases h : (dictLookup tl.tracks t.id).isSome
      · rw [if_pos h]
        exact ⟨rfl, rfl⟩
      · rw [if_neg h]
        exact ih _

theorem foldl_insort_step (ns : List Note) :
    ∀ tl : Timeline,
      (ns.foldl (fun t n => { t with notes := insort t.notes n }) tl).notes
        = ns.foldl insort tl.notes ∧
      (ns.foldl (fun t n => { t with notes := insort t.notes n }) tl).keep_sorted
        = tl.keep_sorted := by
  induction ns with
  | nil => intro tl; exact ⟨rfl, rfl⟩
  | cons n rest ih =>
      intro tl
      rw [List.foldl_cons, List.foldl_cons]
      exact ih _

theorem foldl_insort_sorted (ns : List Note) :
    ∀ l : List Note, NotesSorted l → NotesSorted (ns.foldl insort l) := by
  induction ns with
  | nil => intro l h; exact h
  | cons n rest ih =>
      intro l h
      rw [List.foldl_cons]
      exact ih _ (insort_sorted l n h)

theorem populate_notes_eq (tl : Timeline) (h : tl.keep_sorted = true) (ns : List Note) :
    (tl.populate_notes ns).notes = ns.foldl insort tl.notes ∧
    (tl.populate_notes ns).keep_sorted = true := by
  rw [Timeline.populate_notes, if_pos h]
  exact ⟨(foldl_insort_step ns tl).1, (foldl_insort_step ns tl).2.trans h⟩

theorem add_note_eq (tl : Timeline) (h : tl.keep_sorted = true) (n : Note) :
    (tl.add_note n).notes = insort tl.notes n ∧
    (tl.add_note n).keep_sorted = true := by
  rw [Timeline.add_note, if_pos h]
  exact ⟨rfl, h⟩

theorem foldl_add_note_eq (seq : List Note) :
    ∀ tl : Timeline, tl.keep_sorted = true →
      (seq.foldl Timeline.add_note tl).notes = seq.foldl insort tl.notes ∧
      (seq.foldl Timeline.add_note tl).keep_sorted = true := by
  induction seq with
  | nil => intro tl h; exact ⟨rfl, h⟩
  | cons n rest ih =>
      intro tl h
      rw [List.foldl_cons, List.foldl_cons]
      obtain ⟨h1, h2⟩ := add_note_eq tl h n
      obtain ⟨h3, h4⟩ := ih (tl.add_note n) h2
      exact ⟨h1 ▸ h3, h4⟩

theorem init_keep_sorted_notes (ts : List Track) (ns0 : List Note) (sr bpm : ℕ) :
    (Timeline.init ts ns0 true sr bpm).2.keep_sorted = true ∧
    NotesSorted (Timeline.init ts ns0 true sr bpm).2.notes := by
  rw [Timeline.init]
  rcases hpt : (Timeline.populate_tracks ⟨[], [], true, sr, bpm⟩ ts) with ⟨e, tl1⟩
  have hn := populate_tracks_notes ts ⟨[], [], true, sr, bpm⟩
  rw [hpt] at hn
  obtain ⟨hnotes, hks⟩ := hn
  cases e with
  | error msg =>
      refine ⟨hks, ?_⟩
      rw [hnotes]
      exact List.sorted_nil
  | ok u =>
      obtain ⟨h1, h2⟩ := populate_notes_eq tl1 hks ns0
      refine ⟨h2, ?_⟩
      rw [h1, hnotes]
      exact foldl_insort_sorted ns0 [] List.sorted_nil

/-! ## Instrument lemmas -/

/-- The pure part of `play_note`: scale a base buffer by the note's
velocity (producing a fresh buffer) and trim it to
`int(duration * sr)` samples when `time_wise`. -/
def scaleTrim (base : List ℚ) (n : Note) (sr : ℕ) : List ℚ :=
  let sound := base.map (· * n.velocity)
  if n.time_wise then
    sound.take (pySliceIdx (pyInt (n.duration * (sr : ℚ))) sound.length)
  else sound

/-- `play_note` is a wavetable lookup followed by `scaleTrim`. -/
theorem Instrument.play_note_eq (ins : Instrument) (n : Note) :
    ins.play_note n =
      (scaleTrim (ins.wavetable.getitem n.note).1 n (ins.wavetable.getitem n.note).2.sr,
        ⟨(ins.wavetable.getitem n.note).2⟩) := rfl

/-! ## Buffer accumulation lemmas -/

theorem zipWith_replicate_zero_add (sound : List ℚ) :
    List.zipWith (· + ·) (List.replicate sound.length 0) sound = sound := by
  induction sound with
  | nil => rfl
  | cons a tl ih =>
      simp only [List.length_cons, List.replicate_succ, List.zipWith_cons_cons, zero_add, ih]

/-- Writing a sound that fits entirely inside a zero buffer places it at
the slice offset, zeros elsewhere. -/
theorem npAddSlice_zeros (N : ℕ) (i : ℤ) (sound : List ℚ)
    (hi : 0 ≤ i) (hfit : i.toNat + sound.length ≤ N) :
    npAddSlice (List.replicate N 0) i (i + sound.length) sound =
      .ok (List.replicate i.toNat 0 ++ sound ++
        List.replicate (N - i.toNat - sound.length) 0) := by
  have hlen : (List.replicate N (0 : ℚ)).length = N := List.length_replicate N 0
  have hs : pySliceIdx i (List.replicate N (0 : ℚ)).length = i.toNat := by
    rw [hlen, pySliceIdx, if_neg (not_lt.mpr hi)]
    exact min_eq_left (by omega)
  have he : pySliceIdx (i + sound.length) (List.replicate N (0 : ℚ)).length
      = i.toNat + sound.length := by
    rw [hlen, pySliceIdx, if_neg (not_lt.mpr (by positivity))]
    rw [Int.toNat_add hi (by positivity)]
    simp only [Int.toNat_natCast]
    exact min_eq_left (by omega)
  simp only [npAddSlice]
  rw [hs, he]
  have hview : ((List.replicate N (0 : ℚ)).drop i.toNat).take
      (i.toNat + sound.length - i.toNat) = List.replicate sound.length 0 := by
    rw [List.drop_replicate, List.take_replicate]
    congr 1
    omega
  rw [hview]
  rw [if_pos (by omega : sound.length = i.toNat + sound.length - i.toNat)]
  rw [zipWith_replicate_zero_add]
  rw [List.take_replicate, List.drop_replicate]
  rw [(by omega : min i.toNat N = i.toNat)]
  rw [(by omega : N - (i.toNat + (i.toNat + sound.length - i.toNat))
    = N - i.toNat - sound.length)]

/-! ## Render-loop lemmas -/

/-- Once every remaining note starts at or after the window end, the loop
contributes nothing: each such note either `continue`s or `break`s. -/
theorem genLoop_all_ge (sr : ℕ) (s e : ℚ) :
    ∀ notes : List Note, (∀ m ∈ notes, e ≤ m.start_time) →
      ∀ (tracks : List (ℕ × Track)) (idx : ℕ) (acc : List ℚ),
        genLoop sr s e tracks notes idx acc = (.ok acc, tracks, []) := by
  intro notes
  induction notes with
  | nil => intro _ tracks idx acc; rfl
  | cons n rest ih =>
      intro hall tracks idx acc
      rw [genLoop]
      by_cases hc1 : n.start_time + n.duration ≤ s
      · rw [if_pos hc1]
        exact ih (fun m hm => hall m (List.mem_cons_of_mem n hm)) tracks _ acc
      · rw [if_neg hc1, if_pos (hall n (List.mem_cons_self n rest))]

/-- Appending notes that all start at or after the window end does not
change the render at all: output, final track state and trace agree. -/
theorem genLoop_append_ge (sr : ℕ) (s e : ℚ) (l2 : List Note)
    (hall : ∀ m ∈ l2, e ≤ m.start_time) :
    ∀ (l1 : List Note) (tracks : List (ℕ × Track)) (idx : ℕ) (acc : List ℚ),
      genLoop sr s e tracks (l1 ++ l2) idx acc = genLoop sr s e tracks l1 idx acc := by
  intro l1
  induction l1 with
  | nil =>
      intro tracks idx acc
      rw [List.nil_append]
      exact genLoop_all_ge sr s e l2 hall tracks idx acc
  | cons n rest ih =>
      intro tracks idx acc
      rw [List.cons_append, genLoop, genLoop]
      by_cases hc1 : n.start_time + n.duration ≤ s
      · rw [if_pos hc1, if_pos hc1]
        exact ih tracks _ acc
      · rw [if_neg hc1, if_neg hc1]
        by_cases hc2 : e ≤ n.start_time
        · rw [if_pos hc2, if_pos hc2]
        · rw [if_neg hc2, if_neg hc2]
          cases hlk : dictLookup tracks n.track_id with
          | none => rfl
          | some tr =>
              simp only
              cases hadd : npAddSlice acc (pyInt ((n.start_time - s) * (sr : ℚ)))
                  (pyInt ((n.start_time - s) * (sr : ℚ)) +
                    (tr.instrument.play_note n).1.length)
                  (tr.instrument.play_note n).1 with
              | error msg => rfl
              | ok acc' => simp only [ih]

/-- Every traced position lies within the index range of the note list
the loop was started on. -/
theorem genLoop_trace_bounds (sr : ℕ) (s e : ℚ) :
    ∀ (notes : List Note) (tracks : List (ℕ × Track)) (idx : ℕ) (acc : List ℚ),
      ∀ j ∈ (genLoop sr s e tracks notes idx acc).2.2,
        idx ≤ j ∧ j < idx + notes.length := by
  intro notes
  induction notes with
  | nil => intro tracks idx acc j hj; exact absurd hj (List.not_mem_nil j)
  | cons n rest ih =>
      intro tracks idx acc j hj
      rw [genLoop] at hj
      by_cases hc1 : n.start_time + n.duration ≤ s
      · rw [if_pos hc1] at hj
        have := ih tracks (idx + 1) acc j hj
        exact ⟨by omega, by simpa [Nat.add_comm, Nat.add_left_comm] using this.2⟩
      · rw [if_neg hc1] at hj
        by_cases hc2 : e ≤ n.start_time
        · rw [if_pos hc2] at hj
          exact absurd hj (List.not_mem_nil j)
        · rw [if_neg hc2] at hj
          cases hlk : dictLookup tracks n.track_id with
          | none =>
              rw [hlk] at hj
              simp only [List.mem_singleton] at hj
              refine ⟨le_of_eq hj.symm, ?_⟩
              rw [hj]
              simp only [List.length_cons]
              omega
          | some tr =>
              rw [hlk] at hj
              simp only at hj
              cases hadd : npAddSlice acc (pyInt ((n.start_time - s) * (sr : ℚ)))
                  (pyInt ((n.start_time - s) * (sr : ℚ)) +
                    (tr.instrument.play_note n).1.length)
                  (tr.instrument.play_note n).1 with
              | error msg =>
                  rw [hadd] at hj
                  simp only [List.mem_singleton] at hj
                  refine ⟨le_of_eq hj.symm, ?_⟩
                  rw [hj]
                  simp only [List.length_cons]
                  omega
              | ok acc' =>
                  rw [hadd] at hj
                  simp only [List.mem_cons] at hj
                  rcases hj with hj | hj
                  · refine ⟨le_of_eq hj.symm, ?_⟩
                    rw [hj]
                    simp only [List.length_cons]
                    omega
                  · have := ih _ (idx + 1) acc' j hj
                    simp only [List.length_cons]
                    omega

/-- Sorted tails stay at or after the window end once one note does. -/
theorem sorted_drop_ge (l : List Note) (hs : NotesSorted l) (i : ℕ) (hi : i < l.length)
    (e : ℚ) (he : e ≤ (l.get ⟨i, hi⟩).start_time) :
    ∀ m ∈ l.drop i, e ≤ m.start_time := by
  intro m hm
  have hd : l.drop i = l.get ⟨i, hi⟩ :: l.drop (i + 1) := List.drop_eq_getElem_cons hi
  have hsd : NotesSorted (l.drop i) :=
    List.Pairwise.sublist (List.drop_sublist i l) hs
  rw [hd] at hm hsd
  rcases List.mem_cons.mp hm with h | h
  · exact h ▸ he
  · exact le_trans he ((List.pairwise_cons.mp hsd).1 m h)

/-- When the notes are already sorted, the pre-render sort is a no-op. -/
theorem sorted_sort_id (tl : Timeline) (hs : NotesSorted tl.notes) :
    (if tl.keep_sorted then tl else tl.sort_notes) = tl := by
  by_cases h : tl.keep_sorted
  · rw [if_pos h]
  · rw [if_neg h, Timeline.sort_notes]
    rw [List.Sorted.insertionSort_eq hs]

/-! ## Replay lemmas: a second identical render is a no-op on the state -/

/-- `wt'` extends `wt`: same generator and rate, every cache entry of
`wt` present unchanged in `wt'`. -/
def WavetableLE (wt wt' : Wavetable) : Prop :=
  wt'.sound_generator = wt.sound_generator ∧ wt'.sr = wt.sr ∧
    ∀ k v, dictLookup wt.wavetable k = some v → dictLookup wt'.wavetable k = some v

theorem wavetableLE_refl (wt : Wavetable) : WavetableLE wt wt :=
  ⟨rfl, rfl, fun _ _ h => h⟩

theorem wavetableLE_trans {a b c : Wavetable}
    (h1 : WavetableLE a b) (h2 : WavetableLE b c) : WavetableLE a c :=
  ⟨h2.1.trans h1.1, h2.2.1.trans h1.2.1, fun k v h => h2.2.2 k v (h1.2.2 k v h)⟩

theorem Wavetable.getitem_le (wt : Wavetable) (k : Pitch) :
    WavetableLE wt (wt.getitem k).2 :=
  ⟨Wavetable.getitem_sound_generator wt k, Wavetable.getitem_sr wt k,
    fun k' v h => Wavetable.getitem_preserves wt k k' v h⟩

/-- Replaying `play_note` against any wavetable extending the post-state
returns the same sound and leaves that wavetable untouched. -/
theorem play_note_replay (ins : Instrument) (n : Note) (j : Wavetable)
    (hle : WavetableLE (ins.play_note n).2.wavetable j) :
    Instrument.play_note ⟨j⟩ n = ((ins.play_note n).1, ⟨j⟩) := by
  have hr1 := Instrument.play_note_eq ins n
  set r := ins.wavetable.getitem n.note with hrdef
  have hcache : dictLookup r.2.wavetable n.note = some r.1 :=
    Wavetable.getitem_lookup_self ins.wavetable n.note
  have hj : dictLookup j.wavetable n.note = some r.1 := by
    apply hle.2.2
    rw [hr1]
    exact hcache
  have hjsr : j.sr = r.2.sr := by
    have := hle.2.1
    rw [hr1] at this
    exact this
  rw [Instrument.play_note_eq]
  have hget : (Instrument.mk j).wavetable.getitem n.note = (r.1, j) :=
    Wavetable.getitem_of_cached j n.note r.1 hj
  rw [hget, hr1, hjsr]

/-- `play_note_replay` restated against an instrument, avoiding the
structure-eta friction at use sites. -/
theorem play_note_replay_ins (ins : Instrument) (n : Note) (j : Instrument)
    (hle : WavetableLE (ins.play_note n).2.wavetable j.wavetable) :
    j.play_note n = ((ins.play_note n).1, j) :=
  play_note_replay ins n j.wavetable hle

/-- `t'` extends `t`: no key appears or disappears, and each track keeps
its id while its wavetable only grows. -/
def TracksLE (t t' : List (ℕ × Track)) : Prop :=
  (∀ tid, dictLookup t tid = none → dictLookup t' tid = none) ∧
  ∀ tid tr, dictLookup t tid = some tr → ∃ tr', dictLookup t' tid = some tr' ∧
    tr'.id = tr.id ∧ WavetableLE tr.instrument.wavetable tr'.instrument.wavetable

theorem tracksLE_refl (t : List (ℕ × Track)) : TracksLE t t :=
  ⟨fun _ h => h, fun _ tr h => ⟨tr, h, rfl, wavetableLE_refl _⟩⟩

theorem tracksLE_trans {a b c : List (ℕ × Track)}
    (h1 : TracksLE a b) (h2 : TracksLE b c) : TracksLE a c := by
  refine ⟨fun tid h => h2.1 tid (h1.1 tid h), ?_⟩
  intro tid tr h
  obtain ⟨tr1, hb, hid1, hle1⟩ := h1.2 tid tr h
  obtain ⟨tr2, hc, hid2, hle2⟩ := h2.2 tid tr1 hb
  exact ⟨tr2, hc, hid2.trans hid1, wavetableLE_trans hle1 hle2⟩

/-- Updating one track with its post-`play_note` instrument is a
`TracksLE` step. -/
theorem tracksLE_play_step (tracks : List (ℕ × Track)) (tid : ℕ) (tr : Track)
    (hlk : dictLookup tracks tid = some tr) (ins' : Instrument)
    (hle : WavetableLE tr.instrument.wavetable ins'.wavetable) :
    TracksLE tracks (dictInsert tracks tid { tr with instrument := ins' }) := by
  constructor
  · intro tid' h
    have hne : tid' ≠ tid := by
      intro he
      rw [he, hlk] at h
      exact Option.noConfusion h
    rw [dictLookup_dictInsert_of_ne _ _ _ _ hne]
    exact h
  · intro tid' tr' h
    by_cases he : tid' = tid
    · subst he
      refine ⟨{ tr with instrument := ins' }, dictLookup_dictInsert_self _ _ _, ?_, ?_⟩
      · have : tr' = tr := Option.some.inj (h.symm.trans hlk)
        rw [this]
      · have : tr' = tr := Option.some.inj (h.symm.trans hlk)
        rw [this]
        exact hle
    · rw [dictLookup_dictInsert_of_ne _ _ _ _ he]
      exact ⟨tr', h, rfl, wavetableLE_refl _⟩

/-- The render loop only extends the track map. -/
theorem genLoop_mono (sr : ℕ) (s e : ℚ) :
    ∀ (notes : List Note) (tracks : List (ℕ × Track)) (idx : ℕ) (acc : List ℚ),
      TracksLE tracks (genLoop sr s e tracks notes idx acc).2.1 := by
  intro notes
  induction notes with
  | nil => intro tracks idx acc; exact tracksLE_refl tracks
  | cons n rest ih =>
      intro tracks idx acc
      rw [genLoop]
      by_cases hc1 : n.start_time + n.duration ≤ s
      · rw [if_pos hc1]
        exact ih tracks _ acc
      · rw [if_neg hc1]
        by_cases hc2 : e ≤ n.start_time
        · rw [if_pos hc2]
          exact tracksLE_refl tracks
        · rw [if_neg hc2]
          cases hlk : dictLookup tracks n.track_id with
          | none => exact tracksLE_refl tracks
          | some tr =>
              simp only
              have hstep := tracksLE_play_step tracks n.track_id tr hlk
                (tr.instrument.play_note n).2
                (by
                  have := Wavetable.getitem_le tr.instrument.wavetable n.note
                  exact this)
              cases hadd : npAddSlice acc (pyInt ((n.start_time - s) * (sr : ℚ)))
                  (pyInt ((n.start_time - s) * (sr : ℚ)) +
                    (tr.instrument.play_note n).1.length)
                  (tr.instrument.play_note n).1 with
              | error msg => exact hstep
              | ok acc' => exact tracksLE_trans hstep (ih _ _ _)

/-- Re-running the loop from its own final track state (with the same
fresh accumulator) reproduces the identical result: lookups are all
cache hits and the state does not move. -/
theorem genLoop_replay (sr : ℕ) (s e : ℚ) :
    ∀ (notes : List Note) (tracks : List (ℕ × Track)) (idx : ℕ) (acc : List ℚ),
      genLoop sr s e (genLoop sr s e tracks notes idx acc).2.1 notes idx acc
        = genLoop sr s e tracks notes idx acc := by
  intro notes
  induction notes with
  | nil => intro tracks idx acc; rfl
  | cons n rest ih =>
      intro tracks idx acc
      by_cases hc1 : n.start_time + n.duration ≤ s
      · have hcont : ∀ T : List (ℕ × Track),
            genLoop sr s e T (n :: rest) idx acc = genLoop sr s e T rest (idx + 1) acc := by
          intro T
          rw [genLoop, if_pos hc1]
        rw [hcont tracks, hcont]
        exact ih tracks _ acc
      · by_cases hc2 : e ≤ n.start_time
        · have hbrk : ∀ T : List (ℕ × Track),
              genLoop sr s e T (n :: rest) idx acc = (.ok acc, T, []) := by
            intro T
            rw [genLoop, if_neg hc1, if_pos hc2]
          rw [hbrk tracks, hbrk]
        · have hunf : ∀ T : List (ℕ × Track),
              genLoop sr s e T (n :: rest) idx acc =
                match dictLookup T n.track_id with
                | none => (.error "KeyError", T, [idx])
                | some tr =>
                    match npAddSlice acc (pyInt ((n.start_time - s) * (sr : ℚ)))
                        (pyInt ((n.start_time - s) * (sr : ℚ)) +
                          (tr.instrument.play_note n).1.length)
                        (tr.instrument.play_note n).1 with
                    | .error msg => (.error msg,
                        dictInsert T n.track_id
                          { tr with instrument := (tr.instrument.play_note n).2 }, [idx])
                    | .ok acc' =>
                        ((genLoop sr s e (dictInsert T n.track_id
                            { tr with instrument := (tr.instrument.play_note n).2 })
                            rest (idx + 1) acc').1,
                         (genLoop sr s e (dictInsert T n.track_id
                            { tr with instrument := (tr.instrument.play_note n).2 })
                            rest (idx + 1) acc').2.1,
                         idx :: (genLoop sr s e (dictInsert T n.track_id
                            { tr with instrument := (tr.instrument.play_note n).2 })
                            rest (idx + 1) acc').2.2) := by
            intro T
            rw [genLoop, if_neg hc1, if_neg hc2]
          rw [hunf tracks, hunf]
          cases hlk : dictLookup tracks n.track_id with
          | none => simp only [hlk]
          | some tr =>
              simp only [hlk]
              have hlk2 : dictLookup
                  (dictInsert tracks n.track_id
                    { tr with instrument := (tr.instrument.play_note n).2 }) n.track_id
                  = some { tr with instrument := (tr.instrument.play_note n).2 } :=
                dictLookup_dictInsert_self _ _ _
              cases hadd : npAddSlice acc (pyInt ((n.start_time - s) * (sr : ℚ)))
                  (pyInt ((n.start_time - s) * (sr : ℚ)) +
                    (tr.instrument.play_note n).1.length)
                  (tr.instrument.play_note n).1 with
              | error msg =>
                  simp only [hadd, hlk2]
                  have hplay := play_note_replay_ins tr.instrument n
                    (tr.instrument.play_note n).2 (wavetableLE_refl _)
                  simp only [hplay, hadd]
                  rw [dictInsert_eq_self _ _ _ hlk2]
              | ok acc' =>
                  simp only [hadd, hlk2]
                  obtain ⟨tr2, hlk3, hid, hle2⟩ :=
                    (genLoop_mono sr s e rest
                      (dictInsert tracks n.track_id
                        { tr with instrument := (tr.instrument.play_note n).2 })
                      (idx + 1) acc').2 n.track_id
                      { tr with instrument := (tr.instrument.play_note n).2 } hlk2
                  simp only [hlk3]
                  have hplay := play_note_replay_ins tr.instrument n tr2.instrument hle2
                  simp only [hplay]
                  have heta : ({ id := tr2.id, instrument := tr2.instrument } : Track)
                      = tr2 := rfl
                  rw [heta, dictInsert_eq_self _ _ _ hlk3, hadd]
                  simp only [ih]

/-- The default-`end_time` resolution of `generate_audio`: the explicit
argument, or `max(start_time + duration)` over the notes (raising on an
empty note list). -/
def endResolve (notes : List Note) (endT? : Option ℚ) : Except String ℚ :=
  match endT? with
  | some e => Except.ok e
  | none =>
      match notes.map (fun n => n.start_time + n.duration) with
      | [] => Except.error "max arg is an empty sequence"
      | x :: xs => Except.ok (xs.foldl max x)

/-- The part of `generate_audio` after the in-place sort step, factored
out so the two calls of the idempotence argument can be compared. -/
def genAudioCore (tl : Timeline) (startT : ℚ) (endT? : Option ℚ) :
    Except String (List ℚ) × Timeline × List ℕ :=
  match endResolve tl.notes endT? with
  | .error msg => (.error msg, tl, [])
  | .ok endT =>
      if pyInt ((endT - startT) * (tl.sr : ℚ)) < 0 then
        (.error "negative dimensions are not allowed", tl, [])
      else
        ((genLoop tl.sr startT endT tl.tracks tl.notes 0
            (List.replicate (pyInt ((endT - startT) * (tl.sr : ℚ))).toNat 0)).1,
         { tl with tracks := (genLoop tl.sr startT endT tl.tracks tl.notes 0
            (List.replicate (pyInt ((endT - startT) * (tl.sr : ℚ))).toNat 0)).2.1 },
         (genLoop tl.sr startT endT tl.tracks tl.notes 0
            (List.replicate (pyInt ((endT - startT) * (tl.sr : ℚ))).toNat 0)).2.2)

theorem generate_audio_eq_core (tl : Timeline) (s : ℚ) (e : Option ℚ) :
    tl.generate_audio s e
      = genAudioCore (if tl.keep_sorted then tl else tl.sort_notes) s e := by
  rw [Timeline.generate_audio.eq_def, genAudioCore, endResolve.eq_def]

/-- The timeline returned by the core render differs from its input only
in the `tracks` field. -/
theorem genAudioCore_state (tl : Timeline) (s : ℚ) (e : Option ℚ) :
    (genAudioCore tl s e).2.1.notes = tl.notes ∧
    (genAudioCore tl s e).2.1.keep_sorted = tl.keep_sorted ∧
    (genAudioCore tl s e).2.1.sr = tl.sr ∧
    (genAudioCore tl s e).2.1.bpm = tl.bpm := by
  rw [genAudioCore]
  split
  · exact ⟨rfl, rfl, rfl, rfl⟩
  · split
    · exact ⟨rfl, rfl, rfl, rfl⟩
    · exact ⟨rfl, rfl, rfl, rfl⟩

/-- Re-rendering from the core's own output state reproduces the result
bit-for-bit: the only state change was the track caches, and replaying
against them is a no-op. -/
theorem genAudioCore_replay (tl : Timeline) (s : ℚ) (e : Option ℚ) :
    genAudioCore ((genAudioCore tl s e).2.1) s e = genAudioCore tl s e := by
  cases he : endResolve tl.notes e with
  | error msg =>
      have hst : (genAudioCore tl s e).2.1 = tl := by
        rw [genAudioCore, he]
      rw [hst]
  | ok endT =>
      by_cases hneg : pyInt ((endT - s) * (tl.sr : ℚ)) < 0
      · have hst : (genAudioCore tl s e).2.1 = tl := by
          rw [genAudioCore, he]
          simp only [if_pos hneg]
        rw [hst]
      · have hcore : genAudioCore tl s e =
            ((genLoop tl.sr s endT tl.tracks tl.notes 0
                (List.replicate (pyInt ((endT - s) * (tl.sr : ℚ))).toNat 0)).1,
             { tl with tracks := (genLoop tl.sr s endT tl.tracks tl.notes 0
                (List.replicate (pyInt ((endT - s) * (tl.sr : ℚ))).toNat 0)).2.1 },
             (genLoop tl.sr s endT tl.tracks tl.notes 0
                (List.replicate (pyInt ((endT - s) * (tl.sr : ℚ))).toNat 0)).2.2) := by
          rw [genAudioCore, he]
          simp only [if_neg hneg]
        rw [hcore]
        rw [genAudioCore]
        simp only [he, if_neg hneg, genLoop_replay]

/-! ## Claim theorems -/

/-- C9: `generate_audio` is idempotent: calling it twice with the same
arguments and no intervening mutation returns the identical triple —
output buffer, timeline state and visit trace — even though the first
call may have sorted the note list in place and warmed wavetable caches. -/
theorem C9_generate_audio_idempotent (tl : Timeline) (s : ℚ) (e : Option ℚ) :
    ((tl.generate_audio s e).2.1).generate_audio s e = tl.generate_audio s e := by
  rw [generate_audio_eq_core tl s e]
  rw [generate_audio_eq_core
    ((genAudioCore (if tl.keep_sorted then tl else tl.sort_notes) s e).2.1) s e]
  have hsortid :
      (if (genAudioCore (if tl.keep_sorted then tl else tl.sort_notes) s e).2.1.keep_sorted
        then (genAudioCore (if tl.keep_sorted then tl else tl.sort_notes) s e).2.1
        else (genAudioCore (if tl.keep_sorted then tl else tl.sort_notes) s e).2.1.sort_notes)
      = (genAudioCore (if tl.keep_sorted then tl else tl.sort_notes) s e).2.1 := by
    by_cases hks : tl.keep_sorted
    · rw [if_pos hks]
      have hks2 : (genAudioCore tl s e).2.1.keep_sorted = true := by
        rw [(genAudioCore_state tl s e).2.1]
        exact hks
      rw [if_pos hks2]
    · rw [if_neg hks]
      apply sorted_sort_id
      rw [(genAudioCore_state tl.sort_notes s e).1]
      show NotesSorted (tl.notes.insertionSort noteLE)
      exact List.sorted_insertionSort noteLE tl.notes
  rw [hsortid]
  exact genAudioCore_replay _ s e

/-- C1: the spec requires that a rendered buffer extending past the end of
the output buffer be clipped to the valid range with the call succeeding.
The source has no such guard: `audio_data[start_idx:end_idx] += sound`
with a view shorter than `sound` is a NumPy broadcast error, so the call
fails instead of partially rendering the note.  Concretely, a 4-sample
sound written into a 2-sample output raises. -/
theorem C1_overlong_note_raises_instead_of_clipping :
    (tlLong.generate_audio 0 (some 2)).1 = .error "could not broadcast" := by
  norm_num [tlLong, Timeline.generate_audio, genLoop, Instrument.play_note,
    Wavetable.getitem, Wavetable.get_sound, Wavetable.init, npAddSlice, pySliceIdx,
    pyInt, Int.tdiv, dictLookup, insOf, genConst, AudioSample.toGenerator,
    AudioSample.get_sound, List.replicate]

/-- C8: the claim says a track-id collision in `populate_tracks` is
recoverable (old track overwritten, warning surfaced, remaining tracks
still processed).  The source instead executes `raise Warning(...)`,
which aborts the call: the old track is kept unchanged and the rest of
the list is never processed. -/
theorem C8_collision_aborts_populate_tracks :
    (tlC8.populate_tracks [trColl, trAfter]).1 = .error "Track ID collision" ∧
    (tlC8.populate_tracks [trColl, trAfter]).2 = tlC8 := by
  exact ⟨rfl, rfl⟩

/-- C6 counterexample: the claim (following the spec) says the output
buffer has `round((end_time - start_time) * sample_rate)` samples, but the
source allocates `np.zeros(int(...))` with truncation.  Rendering the
window `[0, 0.17)` at 10 samples per unit yields 1 sample where the claim
demands `round(1.7) = 2`. -/
theorem C6_counterexample_truncation_not_rounding :
    (tlEmptyNotes.generate_audio 0 (some (17/100))).1 = .ok (List.replicate 1 0) ∧
    specRoundLen 0 (17/100) 10 = 2 ∧
    ∀ buf, (tlEmptyNotes.generate_audio 0 (some (17/100))).1 = .ok buf →
      (buf.length : ℤ) ≠ specRoundLen 0 (17/100) 10 := by
  have heval : (tlEmptyNotes.generate_audio 0 (some (17/100))).1 =
      .ok (List.replicate 1 0) := by
    norm_num [tlEmptyNotes, Timeline.generate_audio, genLoop, pyInt, Int.tdiv]
  have hround : specRoundLen 0 (17/100) 10 = 2 := by
    norm_num [specRoundLen, round_eq]
  refine ⟨heval, hround, ?_⟩
  intro buf h
  rw [heval] at h
  have h1 : buf = List.replicate 1 0 := (Except.ok.inj h).symm
  rw [h1, hround]
  norm_num

/-- C2: with the note list sorted and the note at index `i` starting at
or after the window end, rendering equals rendering the first `i` notes
alone (neither that note nor any later one contributes samples), and no
note from index `i` on is visited: every traced position — a note whose
track is resolved and instrument invoked — is `< i`. -/
theorem C2_early_exit_skips_late_notes (tl : Timeline) (s e : ℚ) (i : ℕ)
    (hs : NotesSorted tl.notes) (hi : i < tl.notes.length)
    (hge : e ≤ (tl.notes.get ⟨i, hi⟩).start_time) :
    (tl.generate_audio s (some e)).1 =
      (({ tl with notes := tl.notes.take i } : Timeline).generate_audio s (some e)).1 ∧
    (tl.generate_audio s (some e)).2.2 =
      (({ tl with notes := tl.notes.take i } : Timeline).generate_audio s (some e)).2.2 ∧
    (∀ j ∈ (tl.generate_audio s (some e)).2.2, j < i) := by
  have hall : ∀ m ∈ tl.notes.drop i, e ≤ m.start_time :=
    sorted_drop_ge tl.notes hs i hi e hge
  have hsTake : NotesSorted (tl.notes.take i) :=
    List.Pairwise.sublist (List.take_sublist i tl.notes) hs
  have h1 := sorted_sort_id tl hs
  have h2 := sorted_sort_id ({ tl with notes := tl.notes.take i }) hsTake
  simp only [Timeline.generate_audio, h1, h2]
  by_cases hneg : pyInt ((e - s) * (tl.sr : ℚ)) < 0
  · rw [if_pos hneg, if_pos hneg]
    exact ⟨rfl, rfl, fun j hj => absurd hj (List.not_mem_nil j)⟩
  · rw [if_neg hneg, if_neg hneg]
    have hsplit := List.take_append_drop i tl.notes
    have happ := genLoop_append_ge tl.sr s e (tl.notes.drop i) hall (tl.notes.take i)
      tl.tracks 0 (List.replicate (pyInt ((e - s) * (tl.sr : ℚ))).toNat 0)
    rw [hsplit] at happ
    refine ⟨?_, ?_, ?_⟩
    · rw [happ]
    · rw [happ]
    · intro j hj
      rw [happ] at hj
      have hb := genLoop_trace_bounds tl.sr s e (tl.notes.take i) tl.tracks 0
        (List.replicate (pyInt ((e - s) * (tl.sr : ℚ))).toNat 0) j hj
      have hlen : (tl.notes.take i).length ≤ i := by
        simp [List.length_take]
      omega

/-- Witness for C2: on the two-note timeline whose second note starts at
5, rendering the window `[0, 2)` equals rendering only the first note,
and only position 0 is visited. -/
theorem C2_witness :
    ((tlW.generate_audio 0 (some 2)).1 =
      (({ tlW with notes := tlW.notes.take 1 } : Timeline).generate_audio 0 (some 2)).1) ∧
    (∀ j ∈ (tlW.generate_audio 0 (some 2)).2.2, j < 1) := by
  have hi : 1 < tlW.notes.length := by
    simp [tlW]
  have hs : NotesSorted tlW.notes := by
    show List.Sorted noteLE [nA, nB]
    refine List.sorted_cons.mpr ⟨?_, List.sorted_singleton nB⟩
    intro b hb
    rw [List.mem_singleton] at hb
    rw [hb]
    show nA.start_time ≤ nB.start_time
    norm_num [nA, nB]
  have hge : (2 : ℚ) ≤ (tlW.notes.get ⟨1, hi⟩).start_time := by
    show (2 : ℚ) ≤ nB.start_time
    norm_num [nB]
  have h := C2_early_exit_skips_late_notes tlW 0 2 1 hs hi hge
  exact ⟨h.1, h.2.2⟩

/-- C3: on a timeline constructed with `keep_sorted = true`, after any
sequence of `add_note` calls the note list is non-decreasing in
`start_time`, and the next insertion is stable: the new note lands after
every existing note whose start time is `≤` its own (in particular after
all notes with an equal start time) and before the rest. -/
theorem C3_keep_sorted_invariant_and_stable (ts : List Track) (ns0 : List Note)
    (sr bpm : ℕ) (seq : List Note) (n : Note) :
    NotesSorted (seq.foldl Timeline.add_note (Timeline.init ts ns0 true sr bpm).2).notes ∧
    ((seq.foldl Timeline.add_note (Timeline.init ts ns0 true sr bpm).2).add_note n).notes =
      (seq.foldl Timeline.add_note
        (Timeline.init ts ns0 true sr bpm).2).notes.takeWhile
          (fun m => decide (m.start_time ≤ n.start_time)) ++ n ::
      (seq.foldl Timeline.add_note
        (Timeline.init ts ns0 true sr bpm).2).notes.dropWhile
          (fun m => decide (m.start_time ≤ n.start_time)) := by
  obtain ⟨hks, hsorted⟩ := init_keep_sorted_notes ts ns0 sr bpm
  obtain ⟨hnotes, hks'⟩ := foldl_add_note_eq seq _ hks
  have hsorted' :
      NotesSorted (seq.foldl Timeline.add_note (Timeline.init ts ns0 true sr bpm).2).notes := by
    rw [hnotes]
    exact foldl_insort_sorted seq _ hsorted
  refine ⟨hsorted', ?_⟩
  rw [(add_note_eq _ hks' n).1]
  exact insort_eq_of_sorted _ n hsorted'

/-- C5: `play_note` never mutates the cached base buffer.  Entries already
in the cache are preserved verbatim; rendering the same pitch a second
time (any velocity) leaves the instrument state entirely unchanged; both
renders are `scaleTrim` applied with each note's own velocity to the one
shared cached base; and with different velocities and a nonzero base the
two rendered buffers differ while the cached base stays the same. -/
theorem C5_play_note_never_mutates_cache (ins : Instrument) (n1 n2 : Note)
    (hp : n2.note = n1.note) :
    (∀ k v, dictLookup ins.wavetable.wavetable k = some v →
        dictLookup (ins.play_note n1).2.wavetable.wavetable k = some v) ∧
    ((ins.play_note n1).2.play_note n2).2 = (ins.play_note n1).2 ∧
    (∃ base,
      dictLookup (ins.play_note n1).2.wavetable.wavetable n1.note = some base ∧
      dictLookup ((ins.play_note n1).2.play_note n2).2.wavetable.wavetable n1.note
        = some base ∧
      (ins.play_note n1).1 = scaleTrim base n1 ins.wavetable.sr ∧
      ((ins.play_note n1).2.play_note n2).1 = scaleTrim base n2 ins.wavetable.sr) ∧
    (n1.time_wise = false → n2.time_wise = false → n1.velocity ≠ n2.velocity →
      (∃ base x, dictLookup (ins.play_note n1).2.wavetable.wavetable n1.note
          = some base ∧ x ∈ base ∧ x ≠ 0) →
      (ins.play_note n1).1 ≠ ((ins.play_note n1).2.play_note n2).1) := by
  have hr1 : ins.play_note n1 =
      (scaleTrim (ins.wavetable.getitem n1.note).1 n1 (ins.wavetable.getitem n1.note).2.sr,
        ⟨(ins.wavetable.getitem n1.note).2⟩) := Instrument.play_note_eq ins n1
  set r1 := ins.wavetable.getitem n1.note with hr1def
  have hcache : dictLookup r1.2.wavetable n1.note = some r1.1 :=
    Wavetable.getitem_lookup_self ins.wavetable n1.note
  have hsr : r1.2.sr = ins.wavetable.sr := Wavetable.getitem_sr ins.wavetable n1.note
  have hr2 : (ins.play_note n1).2.play_note n2 =
      (scaleTrim r1.1 n2 r1.2.sr, ⟨r1.2⟩) := by
    rw [hr1]
    rw [Instrument.play_note_eq]
    have hget : (Instrument.mk r1.2).wavetable.getitem n2.note = (r1.1, r1.2) := by
      show r1.2.getitem n2.note = (r1.1, r1.2)
      rw [hp]
      exact Wavetable.getitem_of_cached _ _ _ hcache
    rw [hget]
  refine ⟨?_, ?_, ?_, ?_⟩
  · intro k v hv
    rw [hr1]
    exact Wavetable.getitem_preserves ins.wavetable n1.note k v hv
  · rw [hr2, hr1]
  · refine ⟨r1.1, ?_, ?_, ?_, ?_⟩
    · rw [hr1]
      exact hcache
    · rw [hr2]
      exact hcache
    · rw [hr1, hsr]
    · rw [hr2, hsr]
  · intro htw1 htw2 hvel hbase heq
    obtain ⟨base, x, hlook, hmem, hx⟩ := hbase
    have hbase_eq : base = r1.1 := by
      rw [hr1] at hlook
      have := hlook.symm.trans hcache
      exact Option.some.inj this
    subst hbase_eq
    rw [hr2, hr1] at heq
    simp only [scaleTrim, htw1, htw2, if_neg Bool.false_ne_true] at heq
    have hpt := (List.map_inj_left).1 heq x hmem
    exact hvel (mul_left_cancel₀ hx hpt)

/-- Witness for C5: rendering the one-sample instrument at velocities 1
and 2 leaves the state unchanged on the second render and produces two
different buffers. -/
theorem C5_witness :
    ((insW.play_note nW1).2.play_note nW2).2 = (insW.play_note nW1).2 ∧
    (insW.play_note nW1).1 ≠ ((insW.play_note nW1).2.play_note nW2).1 := by
  have h := C5_play_note_never_mutates_cache insW nW1 nW2 rfl
  refine ⟨h.2.1, ?_⟩
  apply h.2.2.2 rfl rfl (by norm_num [nW1, nW2])
  refine ⟨[1], 1, ?_, by simp, one_ne_zero⟩
  rfl

/-- C4: the wavetable memoizes: over any sequence of lookups the
underlying generator is invoked at most once on behalf of any pitch, and
a repeated lookup of the same pitch returns an equal buffer, served from
the cache (the wavetable state does not change again). -/
theorem C4_wavetable_memoizes (wt : Wavetable) (ks : List Pitch) (p : Pitch) :
    callsFor wt ks p ≤ 1 ∧
    ((wt.getitem p).2.getitem p).1 = (wt.getitem p).1 ∧
    ((wt.getitem p).2.getitem p).2 = (wt.getitem p).2 ∧
    dictLookup (wt.getitem p).2.wavetable p = some (wt.getitem p).1 := by
  refine ⟨callsFor_le_one ks wt p, ?_, ?_, Wavetable.getitem_lookup_self wt p⟩
  · rw [Wavetable.getitem_getitem]
  · rw [Wavetable.getitem_getitem]

/-- C10: `Wavetable.get_sound` forwards only the sample rate, never the
pitch, so on any wavetable built from a generator and evolved by any
sequence of lookups, looking up two different pitches returns equal
buffers: the wavetable is a constant generator across pitches. -/
theorem C10_wavetable_constant_across_pitches (g : SoundGenerator) (sr : ℕ)
    (ks : List Pitch) (p1 p2 : Pitch) :
    (∀ (wt : Wavetable) (q1 q2 : Pitch), wt.get_sound q1 = wt.get_sound q2) ∧
    ((runLookups (Wavetable.init g sr) ks).getitem p1).1 =
      ((runLookups (Wavetable.init g sr) ks).getitem p2).1 := by
  constructor
  · intro wt q1 q2
    rfl
  · have hc : CacheCorrect (runLookups (Wavetable.init g sr) ks) :=
      runLookups_cacheCorrect ks _ (Wavetable.init_cacheCorrect g sr)
    rw [hc.getitem_fst p1, hc.getitem_fst p2]

/-- C6 amended: the output buffer is allocated with exactly
`int((end_time - start_time) * sr)` samples (Python truncation toward
zero, not `round`), and a note rendered inside the window is accumulated
at integer offset `start_idx = int((note.start_time - start_time) * sr)`:
for a single in-window note whose rendered buffer fits, the output is the
rendered buffer at that offset inside zeros, and any successful output
has exactly the truncated length. -/
theorem C6_amended_truncated_allocation_and_offset
    (tracks : List (ℕ × Track)) (tr : Track) (n : Note) (s e : ℚ) (sr bpm : ℕ)
    (hlookup : dictLookup tracks n.track_id = some tr)
    (hc1 : ¬ n.start_time + n.duration ≤ s)
    (hc2 : ¬ e ≤ n.start_time)
    (hlen : 0 ≤ pyInt ((e - s) * (sr : ℚ)))
    (hoff : 0 ≤ pyInt ((n.start_time - s) * (sr : ℚ)))
    (hfit : (pyInt ((n.start_time - s) * (sr : ℚ))).toNat
        + (tr.instrument.play_note n).1.length ≤ (pyInt ((e - s) * (sr : ℚ))).toNat) :
    ((⟨tracks, [n], true, sr, bpm⟩ : Timeline).generate_audio s (some e)).1 =
      .ok (List.replicate (pyInt ((n.start_time - s) * (sr : ℚ))).toNat 0 ++
        (tr.instrument.play_note n).1 ++
        List.replicate ((pyInt ((e - s) * (sr : ℚ))).toNat
          - (pyInt ((n.start_time - s) * (sr : ℚ))).toNat
          - (tr.instrument.play_note n).1.length) 0) ∧
    (∀ buf,
      ((⟨tracks, [n], true, sr, bpm⟩ : Timeline).generate_audio s (some e)).1 = .ok buf →
      buf.length = (pyInt ((e - s) * (sr : ℚ))).toNat) := by
  have hadd := npAddSlice_zeros (pyInt ((e - s) * (sr : ℚ))).toNat
    (pyInt ((n.start_time - s) * (sr : ℚ))) (tr.instrument.play_note n).1 hoff hfit
  have hloop : genLoop sr s e tracks [n] 0
      (List.replicate (pyInt ((e - s) * (sr : ℚ))).toNat 0)
      = (.ok (List.replicate (pyInt ((n.start_time - s) * (sr : ℚ))).toNat 0 ++
          (tr.instrument.play_note n).1 ++
          List.replicate ((pyInt ((e - s) * (sr : ℚ))).toNat
            - (pyInt ((n.start_time - s) * (sr : ℚ))).toNat
            - (tr.instrument.play_note n).1.length) 0),
         dictInsert tracks n.track_id ⟨tr.id, (tr.instrument.play_note n).2⟩, [0]) := by
    simp only [genLoop, if_neg hc1, if_neg hc2, hlookup, hadd]
  have hgen : ((⟨tracks, [n], true, sr, bpm⟩ : Timeline).generate_audio s (some e)).1
      = (genLoop sr s e tracks [n] 0
          (List.replicate (pyInt ((e - s) * (sr : ℚ))).toNat 0)).1 := by
    simp only [Timeline.generate_audio, if_true]
    rw [if_neg (not_lt.mpr hlen)]
  have hout : ((⟨tracks, [n], true, sr, bpm⟩ : Timeline).generate_audio s (some e)).1 =
      .ok (List.replicate (pyInt ((n.start_time - s) * (sr : ℚ))).toNat 0 ++
        (tr.instrument.play_note n).1 ++
        List.replicate ((pyInt ((e - s) * (sr : ℚ))).toNat
          - (pyInt ((n.start_time - s) * (sr : ℚ))).toNat
          - (tr.instrument.play_note n).1.length) 0) := by
    rw [hgen, hloop]
  refine ⟨hout, ?_⟩
  intro buf h
  rw [hout] at h
  have hbuf := Except.ok.inj h
  rw [← hbuf]
  simp only [List.length_append, List.length_replicate]
  omega

/-- Witness for the amended C6: at 2 samples per unit over `[0, 2)` the
buffer has `int(4) = 4` samples, and a note starting at `1/2` lands at
offset `int(1) = 1`: the output is `[0, 3, 5, 0]`. -/
theorem C6_amended_witness :
    ((⟨[(0, ⟨0, insOf [3, 5] 2⟩)], [⟨0, .name "k", 1/2, 1, 1, false, true⟩],
        true, 2, 120⟩ : Timeline).generate_audio 0 (some 2)).1 =
      .ok [0, 3, 5, 0] := by
  have h := C6_amended_truncated_allocation_and_offset
    [(0, ⟨0, insOf [3, 5] 2⟩)] ⟨0, insOf [3, 5] 2⟩
    ⟨0, .name "k", 1/2, 1, 1, false, true⟩ 0 2 2 120
    rfl
    (by norm_num)
    (by norm_num)
    (by norm_num [pyInt, Int.tdiv])
    (by norm_num [pyInt, Int.tdiv])
    (by norm_num [pyInt, Int.tdiv, Instrument.play_note, Wavetable.getitem,
      Wavetable.get_sound, Wavetable.init, dictLookup, insOf, genConst,
      AudioSample.toGenerator, AudioSample.get_sound])
  rw [h.1]
  norm_num [pyInt, Int.tdiv, Instrument.play_note, Wavetable.getitem,
    Wavetable.get_sound, Wavetable.init, dictLookup, insOf, genConst,
    AudioSample.toGenerator, AudioSample.get_sound, List.replicate]

/-- C7 amended: `add_track` assigns the smallest id not in use that is
at least `len(self.tracks)` (so it is guaranteed fresh, but ids below
`len(tracks)` that are free get skipped), stores the new track under that
id, and returns it. -/
theorem C7_amended_first_free_from_len (tl : Timeline)
    (instrument : Instrument ⊕ SoundGenerator) (name : Option String) :
    dictLookup tl.tracks (tl.add_track instrument name).1 = none ∧
    tl.tracks.length ≤ (tl.add_track instrument name).1 ∧
    (∀ j, tl.tracks.length ≤ j → j < (tl.add_track instrument name).1 →
      j ∈ tl.tracks.map Prod.fst) ∧
    (∃ tr : Track, tr.id = (tl.add_track instrument name).1 ∧
      dictLookup (tl.add_track instrument name).2.tracks
        (tl.add_track instrument name).1 = some tr) := by
  obtain ⟨hfree, hge, hall⟩ := findFree_spec (tl.tracks.map Prod.fst) tl.tracks.length
  have hid : (tl.add_track instrument name).1
      = findFree (tl.tracks.map Prod.fst) tl.tracks.length := rfl
  refine ⟨?_, hid ▸ hge, ?_, ?_⟩
  · rw [hid, dictLookup_eq_none_iff]
    exact hfree
  · intro j h1 h2
    exact hall j h1 (hid ▸ h2)
  · clear hid
    cases instrument with
    | inl i => exact ⟨⟨_, i⟩, rfl, dictLookup_dictInsert_self tl.tracks _ _⟩
    | inr g => exact ⟨⟨_, ⟨Wavetable.init g 44100⟩⟩, rfl,
        dictLookup_dictInsert_self tl.tracks _ _⟩

/-- C7 counterexample: the claim says `add_track` assigns the smallest
non-negative unused id.  With the single existing id 2, the probe starts
at `len(tracks) = 1` and returns 1 even though 0 is free. -/
theorem C7_counterexample_not_smallest_free_id :
    (tlGap.add_track (.inl (insOf [1] 44100)) none).1 = 1 ∧
    dictLookup tlGap.tracks 0 = none ∧ (0 : ℕ) < 1 := by
  exact ⟨rfl, rfl, Nat.zero_lt_one⟩

end Minidaw
